import Mathlib

/-!
Verification development for the sequence-scanning kernel of the
`universalmotif` repository (`src/scan_sequences.cpp`).

The C++ code is shallowly embedded:

* `std::vector` / `Rcpp` vectors become Lean `List`s;
* `double` values (score-matrix entries, thresholds) are idealized as `ℚ`;
* C++ `int` score accumulation is idealized as unbounded `Int`;
* `size_t` loop-bound arithmetic, where underflow genuinely matters
  (`sequence.size() - k + 1 - motif.size() + 1` and
  `seq_ints[i].size() - k + 1`), is modelled faithfully as arithmetic
  modulo `2 ^ 64` (`Int.emod`);
* an out-of-bounds `operator\x5b\x5d` access (undefined behaviour in C++) is
  modelled as `Option.none`; `Rcpp::stop` becomes an `Except.error` with the
  stop message, and undefined behaviour a distinct error constructor.

Parallel dispatch (`RcppThread::parallelFor`) is modelled by sequential
iteration: every unit of work is independent and each worker writes only its
own pre-allocated slot, so the collected result is deterministic and equal to
the sequential one.
-/

/-- Truncation of a rational toward zero (floor for non-negative values,
ceiling for negative ones), the semantics of the C++ conversion from
`double` to `int` used at `min_scores[i] * 1000` and
`vec_int_t(tmp2.begin(), tmp2.end())` (lines 280 and 300). -/
def ratTrunc (q : ℚ) : Int :=
  if 0 ≤ q then ⌊q⌋ else ⌈q⌉

/-- Embeds `min_scores2.push_back(min_scores[i] * 1000)` (line 280): a caller
threshold scaled to fixed point. -/
def scaleRat (x : ℚ) : Int :=
  ratTrunc (x * 1000)

/-- Embeds `scores2[i] /= 1000` (line 322): a fixed-point score rescaled to the
caller's units at output formatting. -/
def rescaleScore (s : Int) : ℚ :=
  (s : ℚ) / 1000

/-- Embeds `tmp2 = tmp2 * 1000` followed by integer conversion (lines 299-300),
applied to every entry of a score matrix.  A matrix is a list of positions
(columns of the `Rcpp::NumericMatrix`), each holding one score per
(possibly composite) symbol. -/
def scaleMatrix (m : List (List ℚ)) : List (List Int) :=
  m.map (fun pos => pos.map scaleRat)

/-- The encoding loop body of `scan_sequences_cpp_internal` (lines 94-107):
scan the alphabet in order, return the index of the first character equal to
`c`, or the sentinel `-1` when no alphabet character matches. -/
def encode_char (alph : List Char) (c : Char) : Int :=
  match alph with
  | [] => -1
  | a :: rest =>
    if c = a then 0
    else if encode_char rest c < 0 then -1 else encode_char rest c + 1

/-- Encoding of one raw sequence into an integer symbol stream. -/
def encode_seq (alph : List Char) (s : List Char) : List Int :=
  s.map (encode_char alph)

/-- The `size_t` loop bound `sequence.size() - k + 1 - motif.size() + 1` of
`scan_single_seq` / `scan_single_seq_NA` (lines 48 and 70).  All operations
are performed in `size_t`, i.e. modulo `2 ^ 64`; composing the modular
operations is the same as one `emod` of the exact integer value. -/
def uBoundScan (L W : Nat) (k : Int) : Nat :=
  (((L : Int) - k + 1 - (W : Int) + 1) % (2 ^ 64)).toNat

/-- The `size_t` loop bound `seq_ints[i].size() - k + 1` of
`deal_with_higher_k` / `deal_with_higher_k_NA` (lines 11 and 29), again
modulo `2 ^ 64`. -/
def uBoundRecode (L : Nat) (k : Int) : Nat :=
  (((L : Int) - k + 1) % (2 ^ 64)).toNat

/-- Inner loop of `scan_single_seq` (lines 71-74) starting at stream offset
`i`: `tmp += motif[j][sequence[i + j]]` over the remaining motif positions.
A read past the end of the stream, or a motif-row access at a negative or
out-of-range symbol, is undefined behaviour, modelled as `none`. -/
def scoreStrictFrom : List (List Int) → List Int → Nat → Option Int
  | [], _, _ => some 0
  | row :: rest, s, i =>
    match s.get? i with
    | none => none
    | some sym =>
      if sym < 0 then none
      else
        match row.get? sym.toNat with
        | none => none
        | some v => (scoreStrictFrom rest s (i + 1)).map (fun r => v + r)

/-- Inner loop of `scan_single_seq_NA` (lines 49-55): a sentinel symbol
(`sequence[i + j] < 0`) contributes the fixed penalty `-999999` and the
motif row is not read; otherwise identical to the strict variant. -/
def scoreNAFrom : List (List Int) → List Int → Nat → Option Int
  | [], _, _ => some 0
  | row :: rest, s, i =>
    match s.get? i with
    | none => none
    | some sym =>
      if sym < 0 then (scoreNAFrom rest s (i + 1)).map (fun r => -999999 + r)
      else
        match row.get? sym.toNat with
        | none => none
        | some v => (scoreNAFrom rest s (i + 1)).map (fun r => v + r)

/-- Embeds `scan_single_seq` (lines 63-80): one window score per loop index
`i < sequence.size() - k + 1 - motif.size() + 1` (computed in `size_t`).
If any iteration performs an out-of-bounds access the whole computation is
undefined (`none`). -/
def scan_single_seq (motif : List (List Int)) (s : List Int) (k : Int) :
    Option (List Int) :=
  if _ : ∀ i < uBoundScan s.length motif.length k,
      (scoreStrictFrom motif s i).isSome
  then some ((List.range (uBoundScan s.length motif.length k)).map
    (fun i => (scoreStrictFrom motif s i).getD 0))
  else none

/-- Embeds `scan_single_seq_NA` (lines 41-61), the sentinel-aware window scorer. -/
def scan_single_seq_NA (motif : List (List Int)) (s : List Int) (k : Int) :
    Option (List Int) :=
  if _ : ∀ i < uBoundScan s.length motif.length k,
      (scoreNAFrom motif s i).isSome
  then some ((List.range (uBoundScan s.length motif.length k)).map
    (fun i => (scoreNAFrom motif s i).getD 0))
  else none

/-- Fallible map over a list, used to model a C++ loop whose body can hit
undefined behaviour: the result is defined only if every element's
computation is. -/
def omap (f : α → Option β) : List α → Option (List β)
  | [] => some []
  | a :: l =>
    match f a with
    | none => none
    | some b =>
      match omap f l with
      | none => none
      | some bs => some (b :: bs)

/-- One window of the strict higher-order recoder (lines 30-33):
`tmp += seq_ints[i][j + b] * pow(let_len, k - b - 1)` for `b` in `[0, k)`.
All `k` entries are read unconditionally. -/
def recodeWinStrict (s : List Int) (let_len : Nat) (k : Int) (j : Nat) :
    Option Int :=
  (omap
      (fun b => (s.get? (j + b)).map
        (fun v => v * (let_len : Int) ^ (k - (b : Int) - 1).toNat))
      (List.range k.toNat)).map
    List.sum

/-- One window of the sentinel-aware recoder (lines 12-19), reading the
entries in order: at the first sentinel the accumulation short-circuits to
`-1` (`tmp = -1; break`) and no further entry of the window is read.  The
outer `Option` is definedness (out-of-bounds read before any sentinel);
the inner `none` marks "sentinel found". -/
def recodeWinNAGo (s : List Int) (let_len : Nat) (k : Int) (j : Nat) :
    List Nat → Option (Option Int)
  | [] => some (some 0)
  | b :: rest =>
    match s.get? (j + b) with
    | none => none
    | some v =>
      if v < 0 then some none
      else
        (recodeWinNAGo s let_len k j rest).map
          (fun r => r.map
            (fun acc => v * (let_len : Int) ^ (k - (b : Int) - 1).toNat + acc))

/-- Value written by the sentinel-aware recoder at window start `j`. -/
def recodeWinNA (s : List Int) (let_len : Nat) (k : Int) (j : Nat) :
    Option Int :=
  (recodeWinNAGo s let_len k j (List.range k.toNat)).map
    (fun r => r.getD (-1))

/-- Embeds `deal_with_higher_k` for one stream (lines 28-35): in place, position
`j < seq_ints[i].size() - k + 1` (a `size_t` bound) receives the composite
value of the window starting at `j`; every window only reads positions
`≥ j`, which previous iterations have not overwritten, so each window is
computed from the original stream.  Positions beyond the bound keep their
old value. -/
def deal_with_higher_k_one (s : List Int) (k : Int) (let_len : Nat) :
    Option (List Int) :=
  if _ : ∀ j < uBoundRecode s.length k, (recodeWinStrict s let_len k j).isSome
  then some ((List.range s.length).map
    (fun j => if j < uBoundRecode s.length k
              then (recodeWinStrict s let_len k j).getD 0 else s.getD j 0))
  else none

/-- Embeds `deal_with_higher_k_NA` for one stream (lines 10-21). -/
def deal_with_higher_k_NA_one (s : List Int) (k : Int) (let_len : Nat) :
    Option (List Int) :=
  if _ : ∀ j < uBoundRecode s.length k, (recodeWinNA s let_len k j).isSome
  then some ((List.range s.length).map
    (fun j => if j < uBoundRecode s.length k
              then (recodeWinNA s let_len k j).getD 0 else s.getD j 0))
  else none

/-- Embeds `deal_with_higher_k` over all streams (outer loop at line 28). -/
def deal_with_higher_k (seq_ints : List (List Int)) (k : Int)
    (let_len : Nat) : Option (List (List Int)) :=
  omap (fun s => deal_with_higher_k_one s k let_len) seq_ints

/-- Embeds `deal_with_higher_k_NA` over all streams (outer loop at line 10). -/
def deal_with_higher_k_NA (seq_ints : List (List Int)) (k : Int)
    (let_len : Nat) : Option (List (List Int)) :=
  omap (fun s => deal_with_higher_k_NA_one s k let_len) seq_ints

/-- The composite value `Σ symbol[j + b] * let_len ^ (k - 1 - b)` over
`b` in `[0, k)`, the positional base-`let_len` weighting of one k-window. -/
def winSum (s : List Int) (let_len : Nat) (k : Int) (j : Nat) : Int :=
  ((List.range k.toNat).map
    (fun b => s.getD (j + b) 0 * (let_len : Int) ^ (k - (b : Int) - 1).toNat)).sum

/-- Closed form of the strict recoder's output on one stream: window starts
receive the composite value, the tail keeps its old entries. -/
def recode_spec (s : List Int) (k : Int) (let_len : Nat) : List Int :=
  (List.range s.length).map
    (fun (j : Nat) => if (j : Int) < (s.length : Int) - k + 1
              then winSum s let_len k j else s.getD j 0)

/-- Closed form of the sentinel-aware recoder's output on one stream: a
window containing a sentinel collapses to the sentinel `-1` itself. -/
def recode_spec_NA (s : List Int) (k : Int) (let_len : Nat) : List Int :=
  (List.range s.length).map
    (fun (j : Nat) => if (j : Int) < (s.length : Int) - k + 1
              then (if (List.range k.toNat).any (fun b => s.getD (j + b) 0 < 0)
                    then -1 else winSum s let_len k j)
              else s.getD j 0)

/-- One row pushed by `format_results` (lines 162-166): 1-based motif and
sequence indices, 1-based start/stop and the fixed-point score. -/
structure Hit where
  motif : Int
  seqIdx : Int
  start : Int
  stop : Int
  score : Int
  deriving DecidableEq, Repr

/-- The `j`/`b` double loop of `format_results` for one motif index `i`
(lines 159-168): one `Hit` per position whose score meets the motif's
fixed-point threshold `sc`; `w` is `motifs[i].size()`. -/
def formatOne (i : Nat) (w : Nat) (sc : Int) (vals : List (List Int)) :
    List Hit :=
  ((List.range vals.length).map
    (fun j =>
      (List.range ((vals.getD j []).length)).filterMap
        (fun b =>
          if sc ≤ (vals.getD j []).getD b 0
          then some ⟨(i : Int) + 1, (j : Int) + 1, (b : Int) + 1,
                     (b : Int) + (w : Int), (vals.getD j []).getD b 0⟩
          else none))).foldr (fun a r => a ++ r) []

/-- The body of `format_results`' outer loop for one motif index `i`:
`scores[i]` is read whenever motif `i` has at least one candidate position
(the comparison at line 161), and `motifs[i].size()` whenever at least one
hit is pushed (line 165); an out-of-range read of either is undefined
behaviour (`none`). -/
def formatIdx (out_pre : List (List (List Int))) (scores : List Int)
    (motifs : List (List (List Int))) (i : Nat) : Option (List Hit) :=
  if (out_pre.getD i []).all (fun v => v.isEmpty) then some []
  else
    match scores.get? i with
    | none => none
    | some sc =>
      if (formatOne i (motifs.getD i []).length sc (out_pre.getD i [])).isEmpty
      then some (formatOne i (motifs.getD i []).length sc (out_pre.getD i []))
      else
        match motifs.get? i with
        | none => none
        | some _ =>
          some (formatOne i (motifs.getD i []).length sc (out_pre.getD i []))

/-- Embeds `format_results` (lines 151-174): the motif-major, sequence-major,
offset-major walk over the score vectors. -/
def format_results (out_pre : List (List (List Int))) (scores : List Int)
    (motifs : List (List (List Int))) : Option (List Hit) :=
  (omap (formatIdx out_pre scores motifs) (List.range out_pre.length)).map
    (fun ls => ls.foldr (fun a r => a ++ r) [])

/-- Embeds `std::string::substr(pos, count)` on a raw sequence: throws (modelled
`none`) when `pos` is negative-as-`size_t` or exceeds the length, otherwise
takes at most `count` characters from `pos`. -/
def substrCpp (s : List Char) (pos : Int) (count : Nat) :
    Option (List Char) :=
  if 0 ≤ pos ∧ pos ≤ (s.length : Int)
  then some ((s.drop pos.toNat).take count)
  else none

/-- Embeds `get_matches` (lines 176-188): for each hit row, slice
`seq_vecs[res[1][i] - 1].substr(res[2][i] - 1, motifs[res[0][i] - 1].size())`
from the raw (non-encoded) sequence. -/
def get_matches (res : List Hit) (seq_vecs : List (List Char))
    (motifs : List (List (List Int)))  : Option (List (List Char)) :=
  omap
    (fun r =>
      match (if (0 : Int) ≤ r.motif - 1 then motifs.get? (r.motif - 1).toNat else none) with
      | none => none
      | some m =>
        match (if (0 : Int) ≤ r.seqIdx - 1 then seq_vecs.get? (r.seqIdx - 1).toNat else none) with
        | none => none
        | some sq => substrCpp sq (r.start - 1) m.length)
    res

/-- The aggregate flag `std::accumulate(na_index.begin(), na_index.end(), 0) > 0`
(line 111): did any sequence contain an out-of-alphabet character, i.e. did
any encoded stream receive a sentinel. -/
def anyNeg (seq_ints : List (List Int)) : Bool :=
  seq_ints.any (fun s => s.any (fun x => x < 0))

/-- Number of `Rcpp::warning` calls (lines 113-115): a single aggregate
notice, emitted only when sentinels occurred and `warnNA` is set. -/
def warnCount (useNA warnNA : Bool) : Nat :=
  if useNA && warnNA then 1 else 0

/-- Lines 118-121: the higher-order recoding stage; which variant runs is
decided once, globally, by the sentinel flag. -/
def recodeStage (useNA : Bool) (seq_ints : List (List Int)) (k : Int)
    (let_len : Nat) : Option (List (List Int)) :=
  if 1 < k then
    (match useNA with
     | true => deal_with_higher_k_NA seq_ints k let_len
     | false => deal_with_higher_k seq_ints k let_len)
  else some seq_ints

/-- Lines 125-145: scoring of every (motif, sequence) pair, uniformly with
the variant selected by the sentinel flag. -/
def scanAll (useNA : Bool) (score_mats : List (List (List Int)))
    (streams : List (List Int)) (k : Int) :
    Option (List (List (List Int))) :=
  match useNA with
  | true =>
    omap (fun m => omap (fun s => scan_single_seq_NA m s k) streams) score_mats
  | false =>
    omap (fun m => omap (fun s => scan_single_seq m s k) streams) score_mats

/-- The sentinel-aware whole-batch pipeline (encode, recode, score), the
path taken for every sequence and every motif when any sequence contains an
out-of-alphabet character. -/
def scanAllNA (score_mats : List (List (List Int)))
    (seq_vecs : List (List Char)) (k : Int) (alph : List Char) :
    Option (List (List (List Int))) :=
  (recodeStage true (seq_vecs.map (encode_seq alph)) k alph.length).bind
    (fun streams => scanAll true score_mats streams k)

/-- The strict whole-batch pipeline, taken when no sentinel occurred. -/
def scanAllStrict (score_mats : List (List (List Int)))
    (seq_vecs : List (List Char)) (k : Int) (alph : List Char) :
    Option (List (List (List Int))) :=
  (recodeStage false (seq_vecs.map (encode_seq alph)) k alph.length).bind
    (fun streams => scanAll false score_mats streams k)

/-- Embeds `scan_sequences_cpp_internal` (lines 82-149): encode every sequence,
finalize the aggregate sentinel flag, emit at most one warning, recode when
`k > 1` and score every (motif, sequence) pair — the variant choice is made
once for the whole call.  Returns the `[motif][sequence]` score vectors and
the number of warnings emitted. -/
def scan_sequences_cpp_internal (score_mats : List (List (List Int)))
    (seq_vecs : List (List Char)) (k : Int) (alph : List Char)
    (warnNA : Bool) : Option (List (List (List Int)) × Nat) :=
  let seq_ints := seq_vecs.map (encode_seq alph)
  let useNA := anyNeg seq_ints
  ((recodeStage useNA seq_ints k alph.length).bind
      (fun streams => scanAll useNA score_mats streams k)).map
    (fun out => (out, warnCount useNA warnNA))

/-- One row of the returned `Rcpp::DataFrame` (lines 327-336): the columns
`motif`, `motif.i`, `sequence`, `start`, `stop`, `score` (rescaled) and
`match`. -/
structure ScanHit where
  motifName : Int
  motif_i : Int
  seqIdx : Int
  start : Int
  stop : Int
  score : ℚ
  matched : List Char
  deriving DecidableEq, Repr

/-- Result of a successful call to the entry point: the hit table plus the
number of warnings emitted. -/
structure ScanOutput where
  hits : List ScanHit
  warnings : Nat
  deriving DecidableEq, Repr

/-- Failure of the entry point: either an `Rcpp::stop` with its message, or
undefined behaviour (an out-of-bounds access). -/
inductive ScanError where
  | stop (msg : String)
  | ub
  deriving DecidableEq, Repr

/-- Assembly of the final table: `res` rows zipped with the rescaled scores
(line 322) and the matched substrings. -/
def buildHits (res : List Hit) (ms : List (List Char)) : List ScanHit :=
  (res.zip ms).map
    (fun rm => ⟨rm.1.motif, rm.1.motif, rm.1.seqIdx, rm.1.start, rm.1.stop,
                rescaleScore rm.1.score, rm.2⟩)

/-- Everything `scan_sequences_cpp` does after the length precondition has
passed: scale thresholds and matrices to fixed point (lines 277-302),
run the internal scan, filter and format (lines 315-336). -/
def scan_sequences_pipeline (score_mats : List (List (List ℚ)))
    (seq_vecs : List (List Char)) (k : Int) (alph : List Char)
    (min_scores : List ℚ) (warnNA : Bool) : Option ScanOutput :=
  let min_scores2 := min_scores.map scaleRat
  let score2_mats := score_mats.map scaleMatrix
  (scan_sequences_cpp_internal score2_mats seq_vecs k alph warnNA).bind
    (fun ow =>
      (format_results ow.1 min_scores2 score2_mats).bind
        (fun res =>
          (get_matches res seq_vecs score2_mats).map
            (fun ms => ⟨buildHits res ms, ow.2⟩)))

/-- Embeds `scan_sequences_cpp` (lines 269-338), the C++ entry point.  The only
input validation is the precondition check of lines 304-313: any sequence
shorter than any motif's width aborts the call with `Rcpp::stop` before the
internal scan runs.  (The fixed-point scaling that precedes the check in
the source is pure and total, so folding it into the pipeline does not
change the result.)  `nthreads` only sizes the worker pool and
`allow_nonfinite` is accepted but never read. -/
def scan_sequences_cpp (score_mats : List (List (List ℚ)))
    (seq_vecs : List (List Char)) (k : Int) (alph : List Char)
    (min_scores : List ℚ) (nthreads : Int) (allow_nonfinite : Bool)
    (warnNA : Bool) : Except ScanError ScanOutput :=
  if (score_mats.map List.length).any
       (fun m => (seq_vecs.map List.length).any (fun s => s < m)) then
    Except.error (ScanError.stop
      "Found sequence(s) shorter than the width of the motif(s)")
  else
    match scan_sequences_pipeline score_mats seq_vecs k alph min_scores warnNA with
    | some out => Except.ok out
    | none => Except.error ScanError.ub

/-! ### Helper lemmas: `omap` -/

theorem omap_eq_some_map (f : α → Option β) (g : α → β) :
    ∀ l : List α, (∀ a ∈ l, f a = some (g a)) → omap f l = some (l.map g) := by
  intro l
  induction l with
  | nil => intro _; rfl
  | cons a l ih =>
    intro h
    have ha := h a (List.mem_cons_self a l)
    have hl := ih (fun x hx => h x (List.mem_cons_of_mem a hx))
    simp [omap, ha, hl]

theorem omap_isSome_of_all (f : α → Option β) :
    ∀ l : List α, (∀ a ∈ l, (f a).isSome) → ∃ l2, omap f l = some l2 := by
  intro l
  induction l with
  | nil => intro _; exact ⟨[], rfl⟩
  | cons a l ih =>
    intro h
    obtain ⟨b, hb⟩ := Option.isSome_iff_exists.mp (h a (List.mem_cons_self a l))
    obtain ⟨l2, hl2⟩ := ih (fun x hx => h x (List.mem_cons_of_mem a hx))
    exact ⟨b :: l2, by simp [omap, hb, hl2]⟩

theorem omap_length_get? (f : α → Option β) :
    ∀ l l2, omap f l = some l2 →
      l2.length = l.length ∧ ∀ n, l2.get? n = (l.get? n).bind f := by
  intro l
  induction l with
  | nil =>
    intro l2 h
    have : l2 = [] := by simpa [omap] using h.symm
    subst this
    exact ⟨rfl, fun n => by simp⟩
  | cons a l ih =>
    intro l2 h
    cases hfa : f a with
    | none => simp [omap, hfa] at h
    | some b =>
      cases homap : omap f l with
      | none => simp [omap, hfa, homap] at h
      | some bs =>
        have hl2 : l2 = b :: bs := by
          have := h
          simp [omap, hfa, homap] at this
          exact this.symm
        subst hl2
        obtain ⟨ihlen, ihget⟩ := ih bs homap
        refine ⟨by simp [ihlen], fun n => ?_⟩
        cases n with
        | zero => simp [hfa]
        | succ m => simpa using ihget m

theorem omap_mem (f : α → Option β) :
    ∀ l l2, omap f l = some l2 → ∀ b ∈ l2, ∃ a ∈ l, f a = some b := by
  intro l
  induction l with
  | nil =>
    intro l2 h b hb
    have : l2 = [] := by simpa [omap] using h.symm
    subst this
    simp at hb
  | cons a l ih =>
    intro l2 h b hb
    cases hfa : f a with
    | none => simp [omap, hfa] at h
    | some b0 =>
      cases homap : omap f l with
      | none => simp [omap, hfa, homap] at h
      | some bs =>
        have hl2 : l2 = b0 :: bs := by
          have := h
          simp [omap, hfa, homap] at this
          exact this.symm
        subst hl2
        rcases List.mem_cons.mp hb with hb0 | hbs
        · exact ⟨a, List.mem_cons_self a l, hb0 ▸ hfa⟩
        · obtain ⟨x, hx, hfx⟩ := ih bs homap b hbs
          exact ⟨x, List.mem_cons_of_mem a hx, hfx⟩

/-! ### Helper lemmas: alphabet encoding -/

theorem encode_char_cases (alph : List Char) (c : Char) :
    encode_char alph c = -1 ∨
      (0 ≤ encode_char alph c ∧ (encode_char alph c).toNat < alph.length) := by
  induction alph with
  | nil => exact Or.inl rfl
  | cons a rest ih =>
    simp only [encode_char, List.length_cons]
    split_ifs with h1 h2
    · exact Or.inr (by norm_num)
    · exact Or.inl rfl
    · rcases ih with h | ⟨hp, hlt⟩
      · exact absurd (by rw [h]; norm_num) h2
      · exact Or.inr (by omega)

theorem encode_char_neg_iff (alph : List Char) (c : Char) :
    encode_char alph c < 0 ↔ c ∉ alph := by
  induction alph with
  | nil => simp [encode_char]
  | cons a rest ih =>
    simp only [encode_char, List.mem_cons]
    split_ifs with h1 h2
    · simp [h1]
    · simp [h1, ih.mp h2]
    · have hrest : c ∈ rest := by
        by_contra hc
        exact h2 (ih.mpr hc)
      constructor
      · intro h
        rcases ih with _
        omega
      · intro h
        exact absurd (Or.inr hrest) h

theorem encode_seq_length (alph : List Char) (s : List Char) :
    (encode_seq alph s).length = s.length := by
  simp [encode_seq]

theorem encode_seq_cases (alph : List Char) (s : List Char) :
    ∀ x ∈ encode_seq alph s,
      x = -1 ∨ (0 ≤ x ∧ x.toNat < alph.length) := by
  intro x hx
  obtain ⟨c, _, hc⟩ := List.mem_map.mp hx
  exact hc ▸ encode_char_cases alph c

/-! ### Helper lemmas: window scoring -/

theorem scoreNAFrom_eq_strict (motif : List (List Int)) (s : List Int)
    (h : ∀ x ∈ s, 0 ≤ x) :
    ∀ i, scoreNAFrom motif s i = scoreStrictFrom motif s i := by
  induction motif with
  | nil => intro _; rfl
  | cons row rest ih =>
    intro i
    cases hg : s.get? i with
    | none => simp only [scoreNAFrom, scoreStrictFrom, hg]
    | some sym =>
      have hpos : ¬ sym < 0 := not_lt.mpr (h sym (List.get?_mem hg))
      simp only [scoreNAFrom, scoreStrictFrom, hg]
      rw [if_neg hpos, if_neg hpos]
      cases hv : row.get? sym.toNat with
      | none => rfl
      | some v => rw [ih]

theorem scoreNAFrom_isSome (motif : List (List Int)) (s : List Int)
    (hvals : ∀ x ∈ s, x = -1 ∨ (0 ≤ x ∧ ∀ r ∈ motif, x.toNat < r.length)) :
    ∀ i, i + motif.length ≤ s.length → (scoreNAFrom motif s i).isSome := by
  induction motif with
  | nil => intro i _; rfl
  | cons row rest ih =>
    intro i hfit
    have hvals2 : ∀ x ∈ s, x = -1 ∨ (0 ≤ x ∧ ∀ r ∈ rest, x.toNat < r.length) :=
      fun x hx => (hvals x hx).imp id
        (fun hp => ⟨hp.1, fun r hr => hp.2 r (List.mem_cons_of_mem row hr)⟩)
    have hi : i < s.length := by
      simp only [List.length_cons] at hfit; omega
    obtain ⟨sym, hg⟩ : ∃ sym, s.get? i = some sym := ⟨_, List.get?_eq_get hi⟩
    have hrest : (scoreNAFrom rest s (i + 1)).isSome := by
      apply ih hvals2
      simp only [List.length_cons] at hfit; omega
    simp only [scoreNAFrom, hg]
    rcases hvals sym (List.get?_mem hg) with hs | ⟨hs0, hsr⟩
    · rw [if_pos (by omega : sym < 0)]
      simpa using hrest
    · rw [if_neg (not_lt.mpr hs0)]
      obtain ⟨v, hv⟩ : ∃ v, row.get? sym.toNat = some v :=
        ⟨_, List.get?_eq_get (hsr row (List.mem_cons_self row rest))⟩
      rw [hv]
      simpa using hrest

theorem scoreStrictFrom_isSome (motif : List (List Int)) (s : List Int)
    (hvals : ∀ x ∈ s, 0 ≤ x ∧ ∀ r ∈ motif, x.toNat < r.length) :
    ∀ i, i + motif.length ≤ s.length → (scoreStrictFrom motif s i).isSome := by
  induction motif with
  | nil => intro i _; rfl
  | cons row rest ih =>
    intro i hfit
    have hvals2 : ∀ x ∈ s, 0 ≤ x ∧ ∀ r ∈ rest, x.toNat < r.length :=
      fun x hx => ⟨(hvals x hx).1,
        fun r hr => (hvals x hx).2 r (List.mem_cons_of_mem row hr)⟩
    have hi : i < s.length := by
      simp only [List.length_cons] at hfit; omega
    obtain ⟨sym, hg⟩ : ∃ sym, s.get? i = some sym := ⟨_, List.get?_eq_get hi⟩
    have hrest : (scoreStrictFrom rest s (i + 1)).isSome := by
      apply ih hvals2
      simp only [List.length_cons] at hfit; omega
    simp only [scoreStrictFrom, hg]
    rw [if_neg (not_lt.mpr (hvals sym (List.get?_mem hg)).1)]
    obtain ⟨v, hv⟩ : ∃ v, row.get? sym.toNat = some v :=
      ⟨_, List.get?_eq_get ((hvals sym (List.get?_mem hg)).2 row
        (List.mem_cons_self row rest))⟩
    rw [hv]
    simpa using hrest

/-! ### Helper lemmas: the `size_t` loop bounds -/

theorem uBoundScan_eq (L W : Nat) (k : Int)
    (h0 : 0 ≤ (L : Int) - k + 2 - W) (h1 : (L : Int) - k + 2 - W < 2 ^ 64) :
    (uBoundScan L W k : Int) = (L : Int) - k + 2 - W := by
  unfold uBoundScan
  have he : (L : Int) - k + 1 - (W : Int) + 1 = (L : Int) - k + 2 - W := by ring
  rw [he, Int.emod_eq_of_lt h0 h1, Int.toNat_of_nonneg h0]

theorem uBoundRecode_eq (L : Nat) (k : Int)
    (h0 : 0 ≤ (L : Int) - k + 1) (h1 : (L : Int) - k + 1 < 2 ^ 64) :
    (uBoundRecode L k : Int) = (L : Int) - k + 1 := by
  unfold uBoundRecode
  rw [Int.emod_eq_of_lt h0 h1, Int.toNat_of_nonneg h0]

/-! ### Helper lemmas: the two window scanners -/

theorem scan_single_seq_eq (motif : List (List Int)) (s : List Int) (k : Int)
    (h : ∀ i < uBoundScan s.length motif.length k,
      (scoreStrictFrom motif s i).isSome) :
    scan_single_seq motif s k
      = some ((List.range (uBoundScan s.length motif.length k)).map
          (fun i => (scoreStrictFrom motif s i).getD 0)) := by
  unfold scan_single_seq
  exact dif_pos h

theorem scan_single_seq_NA_eq (motif : List (List Int)) (s : List Int)
    (k : Int)
    (h : ∀ i < uBoundScan s.length motif.length k,
      (scoreNAFrom motif s i).isSome) :
    scan_single_seq_NA motif s k
      = some ((List.range (uBoundScan s.length motif.length k)).map
          (fun i => (scoreNAFrom motif s i).getD 0)) := by
  unfold scan_single_seq_NA
  exact dif_pos h

/-! ### Helper lemmas: higher-order recoding -/

theorem recodeWinStrict_eq (s : List Int) (A : Nat) (k : Int) (j : Nat)
    (hfit : j + k.toNat ≤ s.length) :
    recodeWinStrict s A k j = some (winSum s A k j) := by
  unfold recodeWinStrict winSum
  rw [omap_eq_some_map _
    (fun b => s.getD (j + b) 0 * (A : Int) ^ (k - (b : Int) - 1).toNat) _ ?_]
  · rfl
  · intro b hb
    have hblt : b < k.toNat := List.mem_range.mp hb
    have hj : j + b < s.length := by omega
    obtain ⟨v, hv⟩ : ∃ v, s.get? (j + b) = some v := ⟨_, List.get?_eq_get hj⟩
    have hgd : s.getD (j + b) 0 = v := by rw [List.getD_eq_get?, hv]; rfl
    simp only []
    rw [hv, hgd]
    rfl

theorem recodeWinNAGo_eq (s : List Int) (A : Nat) (k : Int) (j : Nat) :
    ∀ bs : List Nat, (∀ b ∈ bs, j + b < s.length) →
      recodeWinNAGo s A k j bs
        = some (if bs.any (fun b => s.getD (j + b) 0 < 0) then none
            else some ((bs.map
              (fun b => s.getD (j + b) 0
                * (A : Int) ^ (k - (b : Int) - 1).toNat)).sum)) := by
  intro bs
  induction bs with
  | nil => intro _; simp [recodeWinNAGo]
  | cons b rest ih =>
    intro hin
    have hj : j + b < s.length := hin b (List.mem_cons_self b rest)
    obtain ⟨v, hv⟩ : ∃ v, s.get? (j + b) = some v := ⟨_, List.get?_eq_get hj⟩
    have hgd : s.getD (j + b) 0 = v := by rw [List.getD_eq_get?, hv]; rfl
    have hrest := ih (fun x hx => hin x (List.mem_cons_of_mem b hx))
    simp only [recodeWinNAGo, hv]
    by_cases hneg : v < 0
    · rw [if_pos hneg]
      have hany : ((b :: rest).any fun x => decide (s.getD (j + x) 0 < 0))
          = true := by
        rw [List.any_cons]
        have hh : decide (s.getD (j + b) 0 < 0) = true := by
          rw [hgd]; exact decide_eq_true hneg
        rw [hh, Bool.true_or]
      rw [if_pos hany]
    · rw [if_neg hneg, hrest]
      have hconsany : ((b :: rest).any fun x => decide (s.getD (j + x) 0 < 0))
          = (rest.any fun x => decide (s.getD (j + x) 0 < 0)) := by
        rw [List.any_cons]
        have hh : decide (s.getD (j + b) 0 < 0) = false := by
          rw [hgd]; exact decide_eq_false hneg
        rw [hh, Bool.false_or]
      rw [hconsany]
      by_cases hany : (rest.any fun x => decide (s.getD (j + x) 0 < 0)) = true
      · rw [if_pos hany, if_pos hany]
        rfl
      · rw [if_neg hany, if_neg hany]
        rw [List.map_cons, List.sum_cons, hgd]
        rfl

theorem recodeWinNA_eq (s : List Int) (A : Nat) (k : Int) (j : Nat)
    (hfit : j + k.toNat ≤ s.length) :
    recodeWinNA s A k j
      = some (if (List.range k.toNat).any (fun b => s.getD (j + b) 0 < 0)
          then -1 else winSum s A k j) := by
  unfold recodeWinNA
  rw [recodeWinNAGo_eq s A k j (List.range k.toNat)
    (fun b hb => by have := List.mem_range.mp hb; omega)]
  by_cases hany :
      ((List.range k.toNat).any fun b => decide (s.getD (j + b) 0 < 0)) = true
  · rw [if_pos hany, if_pos hany]
    rfl
  · rw [if_neg hany, if_neg hany]
    rfl

theorem recode_spec_length (s : List Int) (k : Int) (A : Nat) :
    (recode_spec s k A).length = s.length := by
  simp [recode_spec]

theorem recode_spec_NA_length (s : List Int) (k : Int) (A : Nat) :
    (recode_spec_NA s k A).length = s.length := by
  simp [recode_spec_NA]

theorem deal_with_higher_k_one_eq (s : List Int) (k : Int) (A : Nat)
    (hk : 1 ≤ k) (hlen : (k : Int) ≤ (s.length : Int) + 1)
    (hbig : (s.length : Int) + 2 ≤ 2 ^ 64) :
    deal_with_higher_k_one s k A = some (recode_spec s k A) := by
  have hB : (uBoundRecode s.length k : Int) = (s.length : Int) - k + 1 :=
    uBoundRecode_eq s.length k (by omega) (by omega)
  have hfit : ∀ j < uBoundRecode s.length k, j + k.toNat ≤ s.length := by
    intro j hj
    have hj2 : (j : Int) < (s.length : Int) - k + 1 := by
      rw [← hB]; exact_mod_cast hj
    omega
  have htot : ∀ j < uBoundRecode s.length k,
      (recodeWinStrict s A k j).isSome := by
    intro j hj
    rw [recodeWinStrict_eq s A k j (hfit j hj)]
    rfl
  unfold deal_with_higher_k_one
  rw [dif_pos htot]
  unfold recode_spec
  congr 1
  apply List.map_congr_left
  intro j hj
  by_cases hcase : j < uBoundRecode s.length k
  · rw [if_pos hcase, recodeWinStrict_eq s A k j (hfit j hcase)]
    have hc2 : (j : Int) < (s.length : Int) - k + 1 := by
      rw [← hB]; exact_mod_cast hcase
    rw [if_pos hc2]
    rfl
  · rw [if_neg hcase]
    have hc2 : ¬ ((j : Int) < (s.length : Int) - k + 1) := by
      rw [← hB]
      intro hcon
      exact hcase (by exact_mod_cast hcon)
    rw [if_neg hc2]

theorem deal_with_higher_k_NA_one_eq (s : List Int) (k : Int) (A : Nat)
    (hk : 1 ≤ k) (hlen : (k : Int) ≤ (s.length : Int) + 1)
    (hbig : (s.length : Int) + 2 ≤ 2 ^ 64) :
    deal_with_higher_k_NA_one s k A = some (recode_spec_NA s k A) := by
  have hB : (uBoundRecode s.length k : Int) = (s.length : Int) - k + 1 :=
    uBoundRecode_eq s.length k (by omega) (by omega)
  have hfit : ∀ j < uBoundRecode s.length k, j + k.toNat ≤ s.length := by
    intro j hj
    have hj2 : (j : Int) < (s.length : Int) - k + 1 := by
      rw [← hB]; exact_mod_cast hj
    omega
  have htot : ∀ j < uBoundRecode s.length k,
      (recodeWinNA s A k j).isSome := by
    intro j hj
    rw [recodeWinNA_eq s A k j (hfit j hj)]
    rfl
  unfold deal_with_higher_k_NA_one
  rw [dif_pos htot]
  unfold recode_spec_NA
  congr 1
  apply List.map_congr_left
  intro j hj
  by_cases hcase : j < uBoundRecode s.length k
  · rw [if_pos hcase, recodeWinNA_eq s A k j (hfit j hcase)]
    have hc2 : (j : Int) < (s.length : Int) - k + 1 := by
      rw [← hB]; exact_mod_cast hcase
    rw [if_pos hc2]
    rfl
  · rw [if_neg hcase]
    have hc2 : ¬ ((j : Int) < (s.length : Int) - k + 1) := by
      rw [← hB]
      intro hcon
      exact hcase (by exact_mod_cast hcon)
    rw [if_neg hc2]

/-! ### Helper lemmas: defined scans and their lengths -/

theorem scan_single_seq_NA_defined (motif : List (List Int)) (s : List Int)
    (k : Int) (R : Nat)
    (hrows : ∀ r ∈ motif, r.length = R)
    (hvals : ∀ x ∈ s, x = -1 ∨ (0 ≤ x ∧ x.toNat < R))
    (hk : 1 ≤ k)
    (hWk : (motif.length : Int) + k ≤ (s.length : Int) + 2)
    (hbig : (s.length : Int) + 2 ≤ 2 ^ 64) :
    Option.map List.length (scan_single_seq_NA motif s k)
      = some (((s.length : Int) - k + 2 - motif.length).toNat) := by
  have hB : (uBoundScan s.length motif.length k : Int)
      = (s.length : Int) - k + 2 - motif.length :=
    uBoundScan_eq s.length motif.length k (by omega) (by omega)
  have hvals2 : ∀ x ∈ s, x = -1 ∨ (0 ≤ x ∧ ∀ r ∈ motif, x.toNat < r.length) :=
    fun x hx => (hvals x hx).imp id
      (fun hp => ⟨hp.1, fun r hr => by rw [hrows r hr]; exact hp.2⟩)
  have htot : ∀ i < uBoundScan s.length motif.length k,
      (scoreNAFrom motif s i).isSome := by
    intro i hi
    apply scoreNAFrom_isSome motif s hvals2
    have hi2 : (i : Int) < (s.length : Int) - k + 2 - motif.length := by
      rw [← hB]; exact_mod_cast hi
    omega
  rw [scan_single_seq_NA_eq motif s k htot]
  simp only [Option.map_some', List.length_map, List.length_range]
  congr 1
  omega

theorem scan_single_seq_defined (motif : List (List Int)) (s : List Int)
    (k : Int) (R : Nat)
    (hrows : ∀ r ∈ motif, r.length = R)
    (hvals : ∀ x ∈ s, 0 ≤ x ∧ x.toNat < R)
    (hk : 1 ≤ k)
    (hWk : (motif.length : Int) + k ≤ (s.length : Int) + 2)
    (hbig : (s.length : Int) + 2 ≤ 2 ^ 64) :
    Option.map List.length (scan_single_seq motif s k)
      = some (((s.length : Int) - k + 2 - motif.length).toNat) := by
  have hB : (uBoundScan s.length motif.length k : Int)
      = (s.length : Int) - k + 2 - motif.length :=
    uBoundScan_eq s.length motif.length k (by omega) (by omega)
  have hvals2 : ∀ x ∈ s, 0 ≤ x ∧ ∀ r ∈ motif, x.toNat < r.length :=
    fun x hx => ⟨(hvals x hx).1,
      fun r hr => by rw [hrows r hr]; exact (hvals x hx).2⟩
  have htot : ∀ i < uBoundScan s.length motif.length k,
      (scoreStrictFrom motif s i).isSome := by
    intro i hi
    apply scoreStrictFrom_isSome motif s hvals2
    have hi2 : (i : Int) < (s.length : Int) - k + 2 - motif.length := by
      rw [← hB]; exact_mod_cast hi
    omega
  rw [scan_single_seq_eq motif s k htot]
  simp only [Option.map_some', List.length_map, List.length_range]
  congr 1
  omega

/-! ### Helper lemmas: hit extraction -/

theorem mem_foldr_append (ls : List (List α)) (a : α) :
    a ∈ ls.foldr (fun x r => x ++ r) [] ↔ ∃ l ∈ ls, a ∈ l := by
  induction ls with
  | nil => simp
  | cons l ls ih => simp [List.mem_append, ih]

theorem formatOne_mem (i w : Nat) (sc : Int) (vals : List (List Int))
    (r : Hit) :
    r ∈ formatOne i w sc vals ↔
      ∃ j b, j < vals.length ∧ b < (vals.getD j []).length ∧
        sc ≤ (vals.getD j []).getD b 0 ∧
        r = ⟨(i : Int) + 1, (j : Int) + 1, (b : Int) + 1,
             (b : Int) + (w : Int), (vals.getD j []).getD b 0⟩ := by
  unfold formatOne
  rw [mem_foldr_append]
  constructor
  · rintro ⟨lst, hlst, hr⟩
    obtain ⟨j, hj, rfl⟩ := List.mem_map.mp hlst
    obtain ⟨b, hb, hsome⟩ := List.mem_filterMap.mp hr
    have hjlt := List.mem_range.mp hj
    have hblt := List.mem_range.mp hb
    by_cases hsc : sc ≤ (vals.getD j []).getD b 0
    · rw [if_pos hsc] at hsome
      exact ⟨j, b, hjlt, hblt, hsc, (Option.some.inj hsome).symm⟩
    · rw [if_neg hsc] at hsome
      exact absurd hsome (by simp)
  · rintro ⟨j, b, hj, hb, hsc, rfl⟩
    refine ⟨_, List.mem_map.mpr ⟨j, List.mem_range.mpr hj, rfl⟩, ?_⟩
    exact List.mem_filterMap.mpr ⟨b, List.mem_range.mpr hb, by rw [if_pos hsc]⟩

theorem format_results_total (out_pre : List (List (List Int)))
    (scores : List Int) (motifs : List (List (List Int)))
    (hsc : out_pre.length ≤ scores.length)
    (hm : out_pre.length ≤ motifs.length) :
    ∃ rows, format_results out_pre scores motifs = some rows := by
  have hall : ∀ i ∈ List.range out_pre.length,
      (formatIdx out_pre scores motifs i).isSome := by
    intro i hi
    have hilt := List.mem_range.mp hi
    unfold formatIdx
    by_cases hempty : ((out_pre.getD i []).all fun v => v.isEmpty) = true
    · rw [if_pos hempty]; rfl
    · rw [if_neg hempty]
      obtain ⟨sc, hsc2⟩ : ∃ sc, scores.get? i = some sc :=
        ⟨_, List.get?_eq_get (by omega)⟩
      simp only [hsc2]
      by_cases hhits :
          (formatOne i (motifs.getD i []).length sc (out_pre.getD i [])).isEmpty
          = true
      · rw [if_pos hhits]; rfl
      · rw [if_neg hhits]
        obtain ⟨m, hm2⟩ : ∃ m, motifs.get? i = some m :=
          ⟨_, List.get?_eq_get (by omega)⟩
        simp only [hm2]
        rfl
  obtain ⟨ls, hls⟩ := omap_isSome_of_all (formatIdx out_pre scores motifs)
    (List.range out_pre.length) hall
  exact ⟨ls.foldr (fun a r => a ++ r) [],
    by unfold format_results; rw [hls]; rfl⟩

theorem format_results_mem (out_pre : List (List (List Int)))
    (scores : List Int) (motifs : List (List (List Int))) (rows : List Hit)
    (hfmt : format_results out_pre scores motifs = some rows) :
    ∀ r ∈ rows, ∃ i j b,
      i < out_pre.length ∧ j < (out_pre.getD i []).length ∧
      b < ((out_pre.getD i []).getD j []).length ∧
      motifs.get? i = some (motifs.getD i []) ∧
      (∃ sc, scores.get? i = some sc ∧
        sc ≤ ((out_pre.getD i []).getD j []).getD b 0) ∧
      r = ⟨(i : Int) + 1, (j : Int) + 1, (b : Int) + 1,
           (b : Int) + ((motifs.getD i []).length : Int),
           ((out_pre.getD i []).getD j []).getD b 0⟩ := by
  intro r hr
  unfold format_results at hfmt
  obtain ⟨ls, hls, hflat⟩ := Option.map_eq_some'.mp hfmt
  rw [← hflat] at hr
  obtain ⟨lst, hlst, hrlst⟩ := (mem_foldr_append ls r).mp hr
  obtain ⟨i, hi, hfi⟩ := omap_mem _ _ _ hls lst hlst
  have hilt := List.mem_range.mp hi
  unfold formatIdx at hfi
  by_cases hempty : ((out_pre.getD i []).all fun v => v.isEmpty) = true
  · rw [if_pos hempty] at hfi
    rw [← Option.some.inj hfi] at hrlst
    simp at hrlst
  · rw [if_neg hempty] at hfi
    cases hsc2 : scores.get? i with
    | none => rw [hsc2] at hfi; exact absurd hfi (by simp)
    | some sc =>
      simp only [hsc2] at hfi
      by_cases hhits :
          (formatOne i (motifs.getD i []).length sc (out_pre.getD i [])).isEmpty
          = true
      · rw [if_pos hhits] at hfi
        rw [← Option.some.inj hfi] at hrlst
        rw [List.isEmpty_iff] at hhits
        rw [hhits] at hrlst
        simp at hrlst
      · rw [if_neg hhits] at hfi
        cases hm2 : motifs.get? i with
        | none => rw [hm2] at hfi; exact absurd hfi (by simp)
        | some m =>
          simp only [hm2] at hfi
          rw [← Option.some.inj hfi] at hrlst
          obtain ⟨j, b, hj, hb, hscle, hreq⟩ :=
            (formatOne_mem i (motifs.getD i []).length sc (out_pre.getD i [])
              r).mp hrlst
          have hmgd : m = motifs.getD i [] := by
            rw [List.getD_eq_get?, hm2]; rfl
          exact ⟨i, j, b, hilt, hj, hb, by rw [hm2, hmgd],
            ⟨sc, hsc2, hscle⟩, hreq⟩

theorem get_matches_total (res : List Hit) (seq_vecs : List (List Char))
    (motifs : List (List (List Int)))
    (h : ∀ r ∈ res, 1 ≤ r.motif ∧ (r.motif - 1).toNat < motifs.length ∧
      1 ≤ r.seqIdx ∧ (r.seqIdx - 1).toNat < seq_vecs.length ∧
      0 ≤ r.start - 1 ∧
      r.start - 1 ≤ ((seq_vecs.getD (r.seqIdx - 1).toNat []).length : Int)) :
    ∃ ms, get_matches res seq_vecs motifs = some ms := by
  unfold get_matches
  apply omap_isSome_of_all
  intro r hr
  obtain ⟨hm1, hm2, hs1, hs2, hp1, hp2⟩ := h r hr
  rw [if_pos (by omega : (0 : Int) ≤ r.motif - 1)]
  obtain ⟨m, hm⟩ : ∃ m, motifs.get? (r.motif - 1).toNat = some m :=
    ⟨_, List.get?_eq_get hm2⟩
  simp only [hm]
  rw [if_pos (by omega : (0 : Int) ≤ r.seqIdx - 1)]
  obtain ⟨sq, hsq⟩ : ∃ sq, seq_vecs.get? (r.seqIdx - 1).toNat = some sq :=
    ⟨_, List.get?_eq_get hs2⟩
  simp only [hsq]
  unfold substrCpp
  have hsqgd : seq_vecs.getD (r.seqIdx - 1).toNat [] = sq := by
    rw [List.getD_eq_get?, hsq]; rfl
  rw [if_pos ⟨hp1, by rw [← hsqgd]; exact hp2⟩]
  rfl

/-! ### Claim theorems -/

/-- Claim C5: for every motif and every encoded stream containing no
sentinel (`-1`) symbols, the strict window scorer and the sentinel-aware
window scorer return identical score vectors. -/
theorem claim_C5 (motif : List (List Int)) (s : List Int) (k : Int)
    (henc : ∀ x ∈ s, x = -1 ∨ 0 ≤ x) (hclean : ∀ x ∈ s, x ≠ -1) :
    scan_single_seq_NA motif s k = scan_single_seq motif s k := by
  have hpos : ∀ x ∈ s, 0 ≤ x := by
    intro x hx
    rcases henc x hx with h | h
    · exact absurd h (hclean x hx)
    · exact h
  have hfun := scoreNAFrom_eq_strict motif s hpos
  unfold scan_single_seq_NA scan_single_seq
  simp only [hfun]

/-- Witness for C5 at a concrete clean stream. -/
theorem claim_C5_witness :
    scan_single_seq_NA [[(3 : Int), 5]] [0, 1, 1] 1
      = scan_single_seq [[(3 : Int), 5]] [0, 1, 1] 1 :=
  claim_C5 [[(3 : Int), 5]] [0, 1, 1] 1 (by decide) (by decide)

/-- Claim C10: the `allow_nonfinite` parameter of the entry point is
accepted but never read, so the returned hit table does not depend on it. -/
theorem claim_C10 (score_mats : List (List (List ℚ)))
    (seq_vecs : List (List Char)) (k : Int) (alph : List Char)
    (min_scores : List ℚ) (nthreads : Int) (warnNA : Bool) :
    scan_sequences_cpp score_mats seq_vecs k alph min_scores nthreads
        true warnNA
      = scan_sequences_cpp score_mats seq_vecs k alph min_scores nthreads
        false warnNA := rfl

/-- Claim C2: every row emitted by `format_results` satisfies
`stop - start + 1 = motifs[motif-1].size()` (the width, i.e. number of
positions, of its motif's score matrix), and the matched substring produced
by `get_matches` for that row is exactly the slice of the raw sequence of
that width starting at the 1-based raw coordinate `start`; `k` plays no
role in either function. -/
theorem claim_C2 (out_pre : List (List (List Int))) (scores : List Int)
    (motifs : List (List (List Int))) (rows : List Hit)
    (seq_vecs : List (List Char)) (ms : List (List Char)) (idx : Nat)
    (r : Hit)
    (hfmt : format_results out_pre scores motifs = some rows)
    (hms : get_matches rows seq_vecs motifs = some ms)
    (hr : rows.get? idx = some r) :
    ∃ m sq, motifs.get? (r.motif - 1).toNat = some m ∧
      seq_vecs.get? (r.seqIdx - 1).toNat = some sq ∧
      r.stop - r.start + 1 = (m.length : Int) ∧
      ms.get? idx = some ((sq.drop (r.start - 1).toNat).take m.length) := by
  have hmem : r ∈ rows := List.get?_mem hr
  obtain ⟨i, j, b, hi, hj, hb, hmot, ⟨sc, hsc, hscle⟩, hreq⟩ :=
    format_results_mem _ _ _ _ hfmt r hmem
  have hrm : r.motif = (i : Int) + 1 := by rw [hreq]
  have hrs : r.seqIdx = (j : Int) + 1 := by rw [hreq]
  have hrst : r.start = (b : Int) + 1 := by rw [hreq]
  have hrsp : r.stop = (b : Int) + ((motifs.getD i []).length : Int) := by
    rw [hreq]
  have hti : (r.motif - 1).toNat = i := by rw [hrm]; omega
  have htj : (r.seqIdx - 1).toNat = j := by rw [hrs]; omega
  have hm0 : (0 : Int) ≤ r.motif - 1 := by rw [hrm]; omega
  have hs0 : (0 : Int) ≤ r.seqIdx - 1 := by rw [hrs]; omega
  have hidxlt : idx < rows.length := by
    by_contra hcon
    rw [List.get?_eq_none.mpr (le_of_not_lt hcon)] at hr
    exact absurd hr (by simp)
  unfold get_matches at hms
  obtain ⟨hlen, hget⟩ := omap_length_get? _ _ _ hms
  have hmsidx := hget idx
  rw [hr] at hmsidx
  simp only [Option.some_bind] at hmsidx
  rw [if_pos hm0] at hmsidx
  simp only [hti] at hmsidx
  simp only [hmot] at hmsidx
  rw [if_pos hs0] at hmsidx
  simp only [htj] at hmsidx
  obtain ⟨x, hx2⟩ : ∃ x, ms.get? idx = some x :=
    ⟨_, List.get?_eq_get (by omega : idx < ms.length)⟩
  cases hsqe : seq_vecs.get? j with
  | none =>
    rw [hsqe] at hmsidx
    rw [hmsidx] at hx2
    exact absurd hx2 (by simp)
  | some sq =>
    simp only [hsqe] at hmsidx
    unfold substrCpp at hmsidx
    split_ifs at hmsidx with hcond
    · refine ⟨motifs.getD i [], sq, ?_, ?_, ?_, ?_⟩
      · rw [hti]; exact hmot
      · rw [htj]; exact hsqe
      · rw [hrsp, hrst]; ring
      · exact hmsidx
    · rw [hmsidx] at hx2
      exact absurd hx2 (by simp)

/-- Witness for C2 at a concrete pipeline: one motif of width 1, one
sequence `"AC"`, one hit at start 1 with match `"A"`. -/
theorem claim_C2_witness :
    ∃ m sq, [[[(1 : Int), 2]]].get? ((1 - 1 : Int)).toNat = some m ∧
      [['A', 'C']].get? ((1 - 1 : Int)).toNat = some sq ∧
      (1 : Int) - 1 + 1 = (m.length : Int) ∧
      [['A']].get? 0 = some ((sq.drop ((1 - 1 : Int)).toNat).take m.length) :=
  claim_C2 [[[5]]] [0] [[[1, 2]]] [⟨1, 1, 1, 1, 5⟩] [['A', 'C']] [['A']] 0
    ⟨1, 1, 1, 1, 5⟩ (by decide) (by decide) (by decide)

/-- Counterexample to C1 as stated: with `k = 2`, a motif of width `W = 1`
and a sequence/stream of length `L = 2`, the claim predicts
`L - W + 1 = 2` window scores but `scan_single_seq` produces
`L - k + 1 - W + 1 = 1`. -/
theorem claim_C1_counterexample :
    Option.map List.length (scan_single_seq [[(0 : Int), 0, 0, 0]] [1, 1] 2)
      ≠ some 2 := by decide

/-- Claim C1 amended: for every order `k ≥ 1` the scanners produce exactly
`(L - k + 1) - W + 1` candidate window scores (one per start offset of the
length-`L - k + 1` recoded stream), which equals `L - W + 1` exactly when
`k = 1`; `L` is the physical stream length and `W` the motif width. -/
theorem claim_C1_amended (motif : List (List Int)) (s : List Int) (k : Int)
    (R : Nat)
    (hk : 1 ≤ k)
    (hWk : (motif.length : Int) + k ≤ (s.length : Int) + 2)
    (hbig : (s.length : Int) + 2 ≤ 2 ^ 64)
    (hrows : ∀ r ∈ motif, r.length = R)
    (hvals : ∀ x ∈ s, x = -1 ∨ (0 ≤ x ∧ x.toNat < R)) :
    Option.map List.length (scan_single_seq_NA motif s k)
        = some (((s.length : Int) - k + 2 - motif.length).toNat)
      ∧ ((∀ x ∈ s, 0 ≤ x) →
        Option.map List.length (scan_single_seq motif s k)
          = some (((s.length : Int) - k + 2 - motif.length).toNat)) := by
  constructor
  · exact scan_single_seq_NA_defined motif s k R hrows hvals hk hWk hbig
  · intro hpos
    apply scan_single_seq_defined motif s k R hrows ?_ hk hWk hbig
    intro x hx
    rcases hvals x hx with h | h
    · have h2 := hpos x hx
      rw [h] at h2
      norm_num at h2
    · exact ⟨hpos x hx, h.2⟩

/-- Witness for the amended C1: sentinel-aware scan of a length-2 stream at
`k = 1`, width 1, yielding 2 scores. -/
theorem claim_C1_amended_witness :
    Option.map List.length (scan_single_seq_NA [[(7 : Int), 0, 0, 0]] [1, -1] 1)
      = some 2 :=
  (claim_C1_amended [[(7 : Int), 0, 0, 0]] [1, -1] 1 4 (by decide) (by decide)
    (by decide) (by decide) (by decide)).1

/-- Counterexample to C7 as stated: with caller threshold `t = 3/2000` and
fixed-point window score `s = 1`, the fixed-point comparison
`s >= trunc(1000 t)` passes, but after rescaling, `s/1000 >= t` fails: the
truncation of the scaled threshold flips the decision. -/
theorem claim_C7_counterexample :
    scaleRat (3 / 2000) ≤ (1 : Int) ∧ ¬ ((3 / 2000 : ℚ) ≤ rescaleScore 1) := by
  constructor
  · unfold scaleRat ratTrunc
    norm_num
  · unfold rescaleScore
    norm_num

/-- Claim C7 amended: the fixed-point thresholding decision agrees with the
comparison of the rescaled score against the caller threshold whenever the
scaled threshold `1000·t` is an integer (no truncation loss); the
counterexample shows it can flip otherwise. -/
theorem claim_C7_amended (s : Int) (t : ℚ) (n : Int)
    (hn : t * 1000 = (n : ℚ)) :
    scaleRat t ≤ s ↔ t ≤ rescaleScore s := by
  have hscale : scaleRat t = n := by
    unfold scaleRat ratTrunc
    rw [hn]
    by_cases h0 : (0 : ℚ) ≤ (n : ℚ)
    · rw [if_pos h0, Int.floor_intCast]
    · rw [if_neg h0, Int.ceil_intCast]
  rw [hscale]
  unfold rescaleScore
  rw [le_div_iff (by norm_num : (0 : ℚ) < 1000)]
  constructor
  · intro h
    rw [hn]
    exact_mod_cast h
  · intro h
    rw [hn] at h
    exact_mod_cast h

/-- Witness for the amended C7 at `t = 2` (scaled threshold `2000`, an
exact integer), `s = 2500`. -/
theorem claim_C7_amended_witness :
    scaleRat 2 ≤ (2500 : Int) ↔ (2 : ℚ) ≤ rescaleScore 2500 :=
  claim_C7_amended 2500 2 2000 (by norm_num)

/-! ### `get?` characterizations of the recoded streams -/

theorem recode_spec_get?_lt (s : List Int) (k : Int) (A : Nat) (j : Nat)
    (hk : 1 ≤ k) (hj : (j : Int) < (s.length : Int) - k + 1) :
    (recode_spec s k A).get? j = some (winSum s A k j) := by
  have hjlen : j < s.length := by omega
  unfold recode_spec
  rw [List.get?_map, List.get?_range hjlen]
  simp only [Option.map_some']
  rw [if_pos hj]

theorem recode_spec_NA_get?_lt (s : List Int) (k : Int) (A : Nat) (j : Nat)
    (hk : 1 ≤ k) (hj : (j : Int) < (s.length : Int) - k + 1) :
    (recode_spec_NA s k A).get? j
      = some (if (List.range k.toNat).any (fun b => s.getD (j + b) 0 < 0)
              then -1 else winSum s A k j) := by
  have hjlen : j < s.length := by omega
  unfold recode_spec_NA
  rw [List.get?_map, List.get?_range hjlen]
  simp only [Option.map_some']
  rw [if_pos hj]

theorem recode_spec_get?_ge (s : List Int) (k : Int) (A : Nat) (j : Nat)
    (hj : (s.length : Int) - k + 1 ≤ (j : Int)) :
    (recode_spec s k A).get? j = s.get? j := by
  by_cases hlt : j < s.length
  · unfold recode_spec
    rw [List.get?_map, List.get?_range hlt]
    simp only [Option.map_some']
    rw [if_neg (by omega)]
    obtain ⟨v, hv⟩ : ∃ v, s.get? j = some v := ⟨_, List.get?_eq_get hlt⟩
    rw [hv]
    have hgd : s.getD j 0 = v := by rw [List.getD_eq_get?, hv]; rfl
    rw [hgd]
  · rw [List.get?_eq_none.mpr (by rw [recode_spec_length]; omega),
      List.get?_eq_none.mpr (by omega)]

theorem recode_spec_NA_get?_ge (s : List Int) (k : Int) (A : Nat) (j : Nat)
    (hj : (s.length : Int) - k + 1 ≤ (j : Int)) :
    (recode_spec_NA s k A).get? j = s.get? j := by
  by_cases hlt : j < s.length
  · unfold recode_spec_NA
    rw [List.get?_map, List.get?_range hlt]
    simp only [Option.map_some']
    rw [if_neg (by omega)]
    obtain ⟨v, hv⟩ : ∃ v, s.get? j = some v := ⟨_, List.get?_eq_get hlt⟩
    rw [hv]
    have hgd : s.getD j 0 = v := by rw [List.getD_eq_get?, hv]; rfl
    rw [hgd]
  · rw [List.get?_eq_none.mpr (by rw [recode_spec_NA_length]; omega),
      List.get?_eq_none.mpr (by omega)]

/-- On an encoded stream (entries `-1` or non-negative), testing a window
for a negative entry is the same as testing it for the sentinel `-1`. -/
theorem any_lt_iff_any_eq (s : List Int) (k' j : Nat)
    (hfit : j + k' ≤ s.length) (henc : ∀ x ∈ s, x = -1 ∨ 0 ≤ x) :
    ((List.range k').any fun b => s.getD (j + b) 0 < 0)
      = ((List.range k').any fun b => s.getD (j + b) 0 = -1) := by
  rw [Bool.eq_iff_iff]
  simp only [List.any_eq_true, List.mem_range, decide_eq_true_eq]
  constructor
  · rintro ⟨b, hb, hneg⟩
    refine ⟨b, hb, ?_⟩
    have hjb : j + b < s.length := by omega
    obtain ⟨v, hv⟩ : ∃ v, s.get? (j + b) = some v := ⟨_, List.get?_eq_get hjb⟩
    have hgd : s.getD (j + b) 0 = v := by rw [List.getD_eq_get?, hv]; rfl
    rw [hgd] at hneg ⊢
    rcases henc v (List.get?_mem hv) with h | h
    · exact h
    · omega
  · rintro ⟨b, hb, heq⟩
    exact ⟨b, hb, by omega⟩

/-- Claim C8 amended: for every `k > 1` and every encoded stream long
enough for the in-place loop bound not to wrap (`len ≥ k - 1`; for shorter
streams the unsigned bound underflows and the recoder reads out of
bounds), the recoder writes at every k-window start the composite value
`Σ symbol[j + b] * |alphabet| ^ (k - 1 - b)`; the sentinel-aware variant
writes the sentinel `-1` instead when the window contains a sentinel; the
positions beyond the first `len - k + 1` are left unchanged. -/
theorem claim_C8_amended (s : List Int) (k : Int) (A : Nat)
    (hk : 1 < k)
    (hlen : (k : Int) ≤ (s.length : Int) + 1)
    (hbig : (s.length : Int) + 2 ≤ 2 ^ 64)
    (henc : ∀ x ∈ s, x = -1 ∨ 0 ≤ x) :
    ∃ t t2,
      deal_with_higher_k_NA_one s k A = some t ∧
      deal_with_higher_k_one s k A = some t2 ∧
      t.length = s.length ∧ t2.length = s.length ∧
      (∀ j : Nat, (j : Int) < (s.length : Int) - k + 1 →
        t.get? j = some
          (if (List.range k.toNat).any (fun b => s.getD (j + b) 0 = -1)
           then -1 else winSum s A k j) ∧
        t2.get? j = some (winSum s A k j)) ∧
      (∀ j : Nat, (s.length : Int) - k + 1 ≤ (j : Int) →
        t.get? j = s.get? j ∧ t2.get? j = s.get? j) := by
  refine ⟨recode_spec_NA s k A, recode_spec s k A,
    deal_with_higher_k_NA_one_eq s k A (by omega) hlen hbig,
    deal_with_higher_k_one_eq s k A (by omega) hlen hbig,
    recode_spec_NA_length s k A, recode_spec_length s k A, ?_, ?_⟩
  · intro j hj
    refine ⟨?_, recode_spec_get?_lt s k A j (by omega) hj⟩
    rw [recode_spec_NA_get?_lt s k A j (by omega) hj]
    rw [any_lt_iff_any_eq s k.toNat j (by omega) henc]
  · intro j hj
    exact ⟨recode_spec_NA_get?_ge s k A j hj, recode_spec_get?_ge s k A j hj⟩

/-- Witness for the amended C8: stream `[0, -1, 1]`, `k = 2`, alphabet size
2: both windows contain the sentinel and collapse to `-1` in the
sentinel-aware recoder, the tail entry is untouched. -/
theorem claim_C8_amended_witness :
    ∃ t t2,
      deal_with_higher_k_NA_one [(0 : Int), -1, 1] 2 2 = some t ∧
      deal_with_higher_k_one [(0 : Int), -1, 1] 2 2 = some t2 ∧
      t.length = 3 ∧ t2.length = 3 ∧
      (∀ j : Nat, (j : Int) < ((3 : Nat) : Int) - 2 + 1 →
        t.get? j = some
          (if (List.range (2 : Int).toNat).any
              (fun b => [(0 : Int), -1, 1].getD (j + b) 0 = -1)
           then -1 else winSum [(0 : Int), -1, 1] 2 2 j) ∧
        t2.get? j = some (winSum [(0 : Int), -1, 1] 2 2 j)) ∧
      (∀ j : Nat, ((3 : Nat) : Int) - 2 + 1 ≤ (j : Int) →
        t.get? j = [(0 : Int), -1, 1].get? j ∧
        t2.get? j = [(0 : Int), -1, 1].get? j) :=
  claim_C8_amended [(0 : Int), -1, 1] 2 2 (by decide) (by decide) (by decide)
    (by decide)

/-- Counterexample to C8 as stated: on the stream `[0]` with `k = 3` the
in-place loop bound `len - k + 1` wraps around in `size_t`, the strict
recoder reads past the stream (undefined behaviour), and no value is left
"as it was" — the claim's unqualified quantification over every stream
fails. -/
theorem claim_C8_counterexample :
    deal_with_higher_k_one [(0 : Int)] 3 2 = none := by
  have hnot : ¬ ∀ j < uBoundRecode [(0 : Int)].length 3,
      (recodeWinStrict [(0 : Int)] 2 3 j).isSome := by
    intro hall
    exact absurd (hall 1 (by decide)) (by decide)
  unfold deal_with_higher_k_one
  rw [dif_neg hnot]

/-- Claim C3: if any sequence is shorter than any motif's width the entry
point fails with the descriptive `Rcpp::stop` error before the scan
pipeline runs and returns no table; if every sequence is at least as long
as every motif's width, no `stop` error is ever raised. -/
theorem claim_C3 (score_mats : List (List (List ℚ)))
    (seq_vecs : List (List Char)) (k : Int) (alph : List Char)
    (min_scores : List ℚ) (nthreads : Int) (anf warnNA : Bool) :
    ((∃ mat ∈ score_mats, ∃ sq ∈ seq_vecs, sq.length < mat.length) →
      scan_sequences_cpp score_mats seq_vecs k alph min_scores nthreads
          anf warnNA
        = Except.error (ScanError.stop
            "Found sequence(s) shorter than the width of the motif(s)"))
    ∧ ((∀ mat ∈ score_mats, ∀ sq ∈ seq_vecs, mat.length ≤ sq.length) →
      ∀ msg, scan_sequences_cpp score_mats seq_vecs k alph min_scores
          nthreads anf warnNA
        ≠ Except.error (ScanError.stop msg)) := by
  constructor
  · intro h
    obtain ⟨mat, hmat, sq, hsq, hlt⟩ := h
    have hany : ((score_mats.map List.length).any
        (fun m => (seq_vecs.map List.length).any (fun s2 => s2 < m)))
        = true := by
      simp only [List.any_eq_true, List.mem_map, decide_eq_true_eq]
      exact ⟨mat.length, ⟨mat, hmat, rfl⟩, sq.length, ⟨sq, hsq, rfl⟩, hlt⟩
    unfold scan_sequences_cpp
    rw [if_pos hany]
  · intro h msg
    have hany : ((score_mats.map List.length).any
        (fun m => (seq_vecs.map List.length).any (fun s2 => s2 < m)))
        = false := by
      rw [List.any_eq_false]
      intro m hm
      obtain ⟨mat, hmat, rfl⟩ := List.mem_map.mp hm
      rw [List.any_eq_true]
      rintro ⟨s2, hs2, hlt⟩
      obtain ⟨sq, hsq, rfl⟩ := List.mem_map.mp hs2
      rw [decide_eq_true_eq] at hlt
      exact absurd hlt (not_lt.mpr (h mat hmat sq hsq))
    unfold scan_sequences_cpp
    rw [if_neg (by rw [hany]; simp)]
    cases scan_sequences_pipeline score_mats seq_vecs k alph min_scores
        warnNA with
    | none => simp
    | some out => simp

/-- Witness for C3: a width-2 motif against the length-1 sequence `"A"`
aborts with the descriptive error. -/
theorem claim_C3_witness :
    scan_sequences_cpp [[[(0 : ℚ)], [0]]] [['A']] 1 ['A'] [0] 1 false true
      = Except.error (ScanError.stop
          "Found sequence(s) shorter than the width of the motif(s)") :=
  (claim_C3 [[[(0 : ℚ)], [0]]] [['A']] 1 ['A'] [0] 1 false true).1
    ⟨[[(0 : ℚ)], [0]], by simp, ['A'], by simp, by decide⟩

/-- Counterexample to C4 as stated: the unit of scanning work dispatched
for a width-2 motif, the recoded stream of the length-2 sequence `"AC"`
and order `k = 3` satisfies the stated precondition `W ≤ L` (2 ≤ 2), yet
the `size_t` loop bound `L - k + 1 - W + 1` wraps to `2^64 - 1` and the
sentinel-aware scorer reads past the end of the stream: the computation is
undefined, not total. -/
theorem claim_C4_counterexample :
    scan_single_seq_NA
      [List.replicate 8 (0 : Int), List.replicate 8 0] [0, 1] 3 = none := by
  have hnot : ¬ ∀ i < uBoundScan ([(0 : Int), 1].length)
      ([List.replicate 8 (0 : Int), List.replicate 8 0].length) 3,
      (scoreNAFrom [List.replicate 8 (0 : Int), List.replicate 8 0]
        [0, 1] i).isSome := by
    intro hall
    exact absurd (hall 1 (by decide)) (by decide)
  unfold scan_single_seq_NA
  rw [dif_neg hnot]

/-- Claim C4 amended: the sentinel-aware recoding and scoring units are
total — never indexing outside a stream or a motif row — provided the
stated precondition `W ≤ L` is strengthened so that neither `size_t` loop
bound wraps: the stream must have at least `k - 1` entries for recoding,
and `W + k ≤ L + 2` (with in-range symbols and rows of the motif sized to
the symbol range) for scoring. -/
theorem claim_C4_amended (motif : List (List Int)) (s s2 : List Int)
    (k : Int) (A R : Nat) (hk : 1 ≤ k) :
    ((1 < k ∧ (k : Int) ≤ (s.length : Int) + 1 ∧
        (s.length : Int) + 2 ≤ 2 ^ 64) →
      (deal_with_higher_k_NA_one s k A).isSome)
    ∧ (((motif.length : Int) + k ≤ (s2.length : Int) + 2 ∧
        (s2.length : Int) + 2 ≤ 2 ^ 64 ∧
        (∀ r ∈ motif, r.length = R) ∧
        (∀ x ∈ s2, x = -1 ∨ (0 ≤ x ∧ x.toNat < R))) →
      (scan_single_seq_NA motif s2 k).isSome) := by
  constructor
  · rintro ⟨h1, h2, h3⟩
    rw [deal_with_higher_k_NA_one_eq s k A hk h2 h3]
    rfl
  · rintro ⟨h1, h2, h3, h4⟩
    have hdef := scan_single_seq_NA_defined motif s2 k R h3 h4 hk h1 h2
    cases hscan : scan_single_seq_NA motif s2 k with
    | none => rw [hscan] at hdef; exact absurd hdef (by simp)
    | some v => rfl

/-- Witness for the amended C4 at `k = 2` with sentinel-bearing streams. -/
theorem claim_C4_amended_witness :
    (deal_with_higher_k_NA_one [(0 : Int), -1, 1] 2 2).isSome
      ∧ (scan_single_seq_NA [[(5 : Int), 6]] [0, 1, -1] 2).isSome := by
  have h := claim_C4_amended [[(5 : Int), 6]] [0, -1, 1] [0, 1, -1] 2 2 2
    (by decide)
  exact ⟨h.1 ⟨by decide, by decide, by decide⟩,
    h.2 ⟨by decide, by decide, by decide, by decide⟩⟩

/-- The aggregate sentinel flag is set exactly when some sequence contains
a character outside the alphabet. -/
theorem anyNeg_encode_iff (seq_vecs : List (List Char)) (alph : List Char) :
    anyNeg (seq_vecs.map (encode_seq alph)) = true
      ↔ ∃ s ∈ seq_vecs, ∃ c ∈ s, c ∉ alph := by
  unfold anyNeg
  rw [List.any_eq_true]
  constructor
  · rintro ⟨si, hsi, hany⟩
    obtain ⟨s, hs, rfl⟩ := List.mem_map.mp hsi
    rw [List.any_eq_true] at hany
    obtain ⟨x, hx, hneg⟩ := hany
    unfold encode_seq at hx
    obtain ⟨c, hc, rfl⟩ := List.mem_map.mp hx
    rw [decide_eq_true_eq] at hneg
    exact ⟨s, hs, c, hc, (encode_char_neg_iff alph c).mp hneg⟩
  · rintro ⟨s, hs, c, hc, hnotin⟩
    refine ⟨encode_seq alph s, List.mem_map.mpr ⟨s, hs, rfl⟩, ?_⟩
    rw [List.any_eq_true]
    refine ⟨encode_char alph c, ?_, ?_⟩
    · unfold encode_seq
      exact List.mem_map.mpr ⟨c, hc, rfl⟩
    · rw [decide_eq_true_eq]
      exact (encode_char_neg_iff alph c).mpr hnotin

/-- Claim C6: if any character of any sequence is outside the alphabet, the
internal scan runs the sentinel-aware recoder and scorer for every sequence
and every motif of the batch and emits exactly one aggregate warning if and
only if `warnNA` is set; if every character is in the alphabet, the strict
variants run and no warning is emitted. -/
theorem claim_C6 (score_mats : List (List (List Int)))
    (seq_vecs : List (List Char)) (k : Int) (alph : List Char)
    (warnNA : Bool) :
    ((∃ s ∈ seq_vecs, ∃ c ∈ s, c ∉ alph) →
      scan_sequences_cpp_internal score_mats seq_vecs k alph warnNA
        = (scanAllNA score_mats seq_vecs k alph).map
            (fun out => (out, if warnNA then 1 else 0)))
    ∧ ((∀ s ∈ seq_vecs, ∀ c ∈ s, c ∈ alph) →
      scan_sequences_cpp_internal score_mats seq_vecs k alph warnNA
        = (scanAllStrict score_mats seq_vecs k alph).map
            (fun out => (out, 0))) := by
  constructor
  · intro h
    have hna : anyNeg (seq_vecs.map (encode_seq alph)) = true :=
      (anyNeg_encode_iff seq_vecs alph).mpr h
    simp only [scan_sequences_cpp_internal, scanAllNA, hna, warnCount,
      Bool.true_and]
  · intro h
    have hna : anyNeg (seq_vecs.map (encode_seq alph)) = false := by
      rw [Bool.eq_false_iff]
      rw [ne_eq, anyNeg_encode_iff]
      rintro ⟨s, hs, c, hc, hno⟩
      exact hno (h s hs c hc)
    simp only [scan_sequences_cpp_internal, scanAllStrict, hna, warnCount,
      Bool.false_and]
    rfl

/-- Witness for C6: the batch `"AN"` (with `N` outside `"AC"`) takes the
sentinel-aware path with one warning; the clean batch `"AC"` takes the
strict path with none. -/
theorem claim_C6_witness :
    scan_sequences_cpp_internal [[[(5 : Int), 6]]] [['A', 'N']] 1
        ['A', 'C'] true
      = (scanAllNA [[[(5 : Int), 6]]] [['A', 'N']] 1 ['A', 'C']).map
          (fun out => (out, if true then 1 else 0))
    ∧ scan_sequences_cpp_internal [[[(5 : Int), 6]]] [['A', 'C']] 1
        ['A', 'C'] true
      = (scanAllStrict [[[(5 : Int), 6]]] [['A', 'C']] 1 ['A', 'C']).map
          (fun out => (out, 0)) :=
  ⟨(claim_C6 [[[(5 : Int), 6]]] [['A', 'N']] 1 ['A', 'C'] true).1 (by decide),
   (claim_C6 [[[(5 : Int), 6]]] [['A', 'C']] 1 ['A', 'C'] true).2 (by decide)⟩

/-! ### The empty-alphabet scan (claim C9 machinery) -/

theorem getD_map_of_lt (f : α → β) (l : List α) (i : Nat) (d : β) (d2 : α)
    (h : i < l.length) : (l.map f).getD i d = f (l.getD i d2) := by
  obtain ⟨v, hv⟩ : ∃ v, l.get? i = some v := ⟨_, List.get?_eq_get h⟩
  rw [List.getD_eq_get?, List.get?_map, hv]
  have hgd : l.getD i d2 = v := by rw [List.getD_eq_get?, hv]; rfl
  rw [hgd]
  rfl

theorem getD_mem_of_lt (l : List α) (i : Nat) (d : α) (h : i < l.length) :
    l.getD i d ∈ l := by
  obtain ⟨v, hv⟩ : ∃ v, l.get? i = some v := ⟨_, List.get?_eq_get h⟩
  have hgd : l.getD i d = v := by rw [List.getD_eq_get?, hv]; rfl
  rw [hgd]
  exact List.get?_mem hv

theorem encode_seq_nil_all (s : List Char) :
    ∀ x ∈ encode_seq [] s, x = -1 := by
  intro x hx
  unfold encode_seq at hx
  obtain ⟨c, _, rfl⟩ := List.mem_map.mp hx
  rfl

theorem scaleMatrix_length (m : List (List ℚ)) :
    (scaleMatrix m).length = m.length := by
  simp [scaleMatrix]

/-- With an empty alphabet and `k = 1`, under the sequence-length
precondition, matching threshold/matrix counts, and at least one non-empty
sequence, the whole pipeline after the precondition check succeeds: the
call is not rejected. -/
theorem scan_empty_alph_pipeline (score_mats : List (List (List ℚ)))
    (seq_vecs : List (List Char)) (min_scores : List ℚ) (warnNA : Bool)
    (hlen : min_scores.length = score_mats.length)
    (hpre : ∀ mat ∈ score_mats, ∀ sq ∈ seq_vecs, mat.length ≤ sq.length)
    (hbig : ∀ sq ∈ seq_vecs, (sq.length : Int) + 2 ≤ 2 ^ 64)
    (hne : ∃ s ∈ seq_vecs, s ≠ []) :
    ∃ out, scan_sequences_pipeline score_mats seq_vecs 1 [] min_scores warnNA
      = some out := by
  have hna : anyNeg (seq_vecs.map (encode_seq [])) = true := by
    rw [anyNeg_encode_iff]
    obtain ⟨s, hs, hsne⟩ := hne
    obtain ⟨c, hc⟩ := List.exists_mem_of_ne_nil s hsne
    exact ⟨s, hs, c, hc, by simp⟩
  have hB : ∀ mat ∈ score_mats, ∀ sq ∈ seq_vecs,
      (uBoundScan (encode_seq [] sq).length (scaleMatrix mat).length 1 : Int)
        = ((encode_seq [] sq).length : Int) - 1 + 2
            - (scaleMatrix mat).length := by
    intro mat hmat sq hsq
    have hW : (scaleMatrix mat).length = mat.length := scaleMatrix_length mat
    have hL : (encode_seq [] sq).length = sq.length := encode_seq_length [] sq
    have hWL : mat.length ≤ sq.length := hpre mat hmat sq hsq
    have hbig2 := hbig sq hsq
    apply uBoundScan_eq
    · rw [hW, hL]; omega
    · rw [hW, hL]; omega
  have hscan1 : ∀ m2 ∈ score_mats.map scaleMatrix,
      ∀ st ∈ seq_vecs.map (encode_seq ([] : List Char)),
      scan_single_seq_NA m2 st 1
        = some ((List.range (uBoundScan st.length m2.length 1)).map
            (fun i => (scoreNAFrom m2 st i).getD 0)) := by
    intro m2 hm2 st hst
    obtain ⟨mat, hmat, rfl⟩ := List.mem_map.mp hm2
    obtain ⟨sq, hsq, rfl⟩ := List.mem_map.mp hst
    apply scan_single_seq_NA_eq
    intro i hi
    have hB2 := hB mat hmat sq hsq
    have hW : (scaleMatrix mat).length = mat.length := scaleMatrix_length mat
    have hL : (encode_seq [] sq).length = sq.length := encode_seq_length [] sq
    have hWL : mat.length ≤ sq.length := hpre mat hmat sq hsq
    apply scoreNAFrom_isSome
    · intro x hx
      exact Or.inl (encode_seq_nil_all sq x hx)
    · have hi2 : (i : Int)
          < ((encode_seq [] sq).length : Int) - 1 + 2
              - (scaleMatrix mat).length := by
        rw [← hB2]; exact_mod_cast hi
      omega
  have hscanAll : scanAll true (score_mats.map scaleMatrix)
      (seq_vecs.map (encode_seq [])) 1
      = some ((score_mats.map scaleMatrix).map
          (fun m2 => (seq_vecs.map (encode_seq [])).map
            (fun st => (List.range (uBoundScan st.length m2.length 1)).map
              (fun i => (scoreNAFrom m2 st i).getD 0)))) := by
    unfold scanAll
    apply omap_eq_some_map
    intro m2 hm2
    apply omap_eq_some_map
    intro st hst
    exact hscan1 m2 hm2 st hst
  have hint : scan_sequences_cpp_internal (score_mats.map scaleMatrix)
      seq_vecs 1 [] warnNA
      = some ((score_mats.map scaleMatrix).map
          (fun m2 => (seq_vecs.map (encode_seq [])).map
            (fun st => (List.range (uBoundScan st.length m2.length 1)).map
              (fun i => (scoreNAFrom m2 st i).getD 0))),
          warnCount true warnNA) := by
    simp only [scan_sequences_cpp_internal, hna, recodeStage]
    rw [if_neg (by norm_num : ¬ (1 : Int) < 1)]
    simp only [Option.some_bind]
    rw [hscanAll]
    rfl
  obtain ⟨rows, hrows⟩ := format_results_total
    ((score_mats.map scaleMatrix).map
      (fun m2 => (seq_vecs.map (encode_seq [])).map
        (fun st => (List.range (uBoundScan st.length m2.length 1)).map
          (fun i => (scoreNAFrom m2 st i).getD 0))))
    (min_scores.map scaleRat) (score_mats.map scaleMatrix)
    (by simp [hlen]) (by simp)
  have hbounds : ∀ r ∈ rows, 1 ≤ r.motif ∧
      (r.motif - 1).toNat < (score_mats.map scaleMatrix).length ∧
      1 ≤ r.seqIdx ∧ (r.seqIdx - 1).toNat < seq_vecs.length ∧
      0 ≤ r.start - 1 ∧
      r.start - 1
        ≤ ((seq_vecs.getD (r.seqIdx - 1).toNat []).length : Int) := by
    intro r hr
    obtain ⟨i, j, b, hi, hj, hb, hmot, hscth, hreq⟩ :=
      format_results_mem _ _ _ _ hrows r hr
    have hrm : r.motif = (i : Int) + 1 := by rw [hreq]
    have hrs : r.seqIdx = (j : Int) + 1 := by rw [hreq]
    have hrst : r.start = (b : Int) + 1 := by rw [hreq]
    have hti : (r.motif - 1).toNat = i := by rw [hrm]; omega
    have htj : (r.seqIdx - 1).toNat = j := by rw [hrs]; omega
    have hilt : i < score_mats.length := by
      have := hi
      simp only [List.length_map] at this
      exact this
    have hjlt : j < seq_vecs.length := by
      have := hj
      rw [getD_map_of_lt _ _ i [] [] (by simp [hilt])] at this
      simp only [List.length_map] at this
      exact this
    have hmmem : score_mats.getD i [] ∈ score_mats :=
      getD_mem_of_lt score_mats i [] hilt
    have hsmem : seq_vecs.getD j [] ∈ seq_vecs :=
      getD_mem_of_lt seq_vecs j [] hjlt
    have hcell : ((((score_mats.map scaleMatrix).map
        (fun m2 => (seq_vecs.map (encode_seq [])).map
          (fun st => (List.range (uBoundScan st.length m2.length 1)).map
            (fun i => (scoreNAFrom m2 st i).getD 0)))).getD i []).getD j [])
        = (List.range (uBoundScan (encode_seq [] (seq_vecs.getD j [])).length
            (scaleMatrix (score_mats.getD i [])).length 1)).map
          (fun i2 => (scoreNAFrom (scaleMatrix (score_mats.getD i []))
            (encode_seq [] (seq_vecs.getD j [])) i2).getD 0) := by
      rw [getD_map_of_lt
        (fun m2 => (seq_vecs.map (encode_seq [])).map
          (fun st => (List.range (uBoundScan st.length m2.length 1)).map
            (fun i => (scoreNAFrom m2 st i).getD 0)))
        (score_mats.map scaleMatrix) i [] [] (by simp [hilt])]
      rw [getD_map_of_lt scaleMatrix score_mats i [] [] hilt]
      rw [getD_map_of_lt _ (seq_vecs.map (encode_seq [])) j [] []
        (by simp [hjlt])]
      rw [getD_map_of_lt (encode_seq []) seq_vecs j [] [] hjlt]
    have hblt : b < uBoundScan (encode_seq [] (seq_vecs.getD j [])).length
        (scaleMatrix (score_mats.getD i [])).length 1 := by
      have := hb
      rw [getD_map_of_lt _ (score_mats.map scaleMatrix) i [] []
        (by simp [hilt])] at this
      rw [getD_map_of_lt scaleMatrix score_mats i [] [] hilt] at this
      rw [getD_map_of_lt _ (seq_vecs.map (encode_seq [])) j [] []
        (by simp [hjlt])] at this
      rw [getD_map_of_lt (encode_seq []) seq_vecs j [] [] hjlt] at this
      simpa using this
    have hB3 := hB (score_mats.getD i []) hmmem (seq_vecs.getD j []) hsmem
    have hL : (encode_seq [] (seq_vecs.getD j [])).length
        = (seq_vecs.getD j []).length :=
      encode_seq_length [] (seq_vecs.getD j [])
    have hble : (b : Int) ≤ ((seq_vecs.getD j []).length : Int) := by
      have hb2 : (b : Int)
          < (uBoundScan (encode_seq [] (seq_vecs.getD j [])).length
              (scaleMatrix (score_mats.getD i [])).length 1 : Int) :=
        by exact_mod_cast hblt
      rw [hB3] at hb2
      omega
    refine ⟨by omega, ?_, by omega, ?_, by omega, ?_⟩
    · rw [hti]
      simp only [List.length_map]
      exact hilt
    · rw [htj]
      exact hjlt
    · rw [htj, hrst]
      omega
  obtain ⟨ms, hms⟩ := get_matches_total rows seq_vecs
    (score_mats.map scaleMatrix) hbounds
  refine ⟨⟨buildHits rows ms, warnCount true warnNA⟩, ?_⟩
  simp only [scan_sequences_pipeline]
  rw [hint]
  simp only [Option.some_bind]
  rw [hrows]
  simp only [Option.some_bind]
  rw [hms]
  rfl

/-- Counterexample to C9 as stated: a call with an empty alphabet is not
rejected with a fatal input error — it silently proceeds on the
sentinel-aware path and returns a hit table (here containing one hit whose
window scored the sentinel penalty `-999999`, above the caller's threshold
of `-10000`). -/
theorem claim_C9_counterexample :
    scan_sequences_cpp [[[(5 : ℚ)]]] [['A']] 1 [] [-10000] 1 false false
      = Except.ok ⟨[⟨1, 1, 1, 1, 1, rescaleScore (-999999), ['A']⟩], 0⟩ := by
  have h1 : scaleRat (-10000 : ℚ) = -10000000 := by
    unfold scaleRat ratTrunc
    have he : (-10000 : ℚ) * 1000 = ((-10000000 : Int) : ℚ) := by norm_num
    rw [he, if_neg (by norm_num), Int.ceil_intCast]
  have h2 : scaleRat (5 : ℚ) = 5000 := by
    unfold scaleRat ratTrunc
    norm_num
  have hmin : [(-10000 : ℚ)].map scaleRat = [-10000000] := by
    simp [h1]
  have hmats : [[[(5 : ℚ)]]].map scaleMatrix = [[[5000]]] := by
    simp [scaleMatrix, h2]
  have hint : scan_sequences_cpp_internal [[[(5000 : Int)]]] [['A']] 1 []
      false = some ([[[-999999]]], 0) := by decide
  have hfmt : format_results [[[(-999999 : Int)]]] [-10000000] [[[5000]]]
      = some [⟨1, 1, 1, 1, -999999⟩] := by decide
  have hgm : get_matches [(⟨1, 1, 1, 1, -999999⟩ : Hit)] [['A']] [[[5000]]]
      = some [['A']] := by decide
  unfold scan_sequences_cpp
  rw [if_neg (by decide)]
  simp only [scan_sequences_pipeline]
  rw [hmats, hmin, hint]
  simp only [Option.some_bind]
  rw [hfmt]
  simp only [Option.some_bind]
  rw [hgm]
  rfl

/-- Claim C9 amended: the entry point performs no validation of
matrix/threshold count agreement, `k` positivity or alphabet
non-emptiness; the only check is the sequence-length precondition.  In
particular a call with an empty alphabet (here with `k = 1`, thresholds
matching the matrices and a non-empty sequence) is silently coerced into a
sentinel-path scan that returns an ordinary hit table instead of failing
with a fatal input error. -/
theorem claim_C9_amended (score_mats : List (List (List ℚ)))
    (seq_vecs : List (List Char)) (min_scores : List ℚ) (nthreads : Int)
    (anf warnNA : Bool)
    (hlen : min_scores.length = score_mats.length)
    (hpre : ∀ mat ∈ score_mats, ∀ sq ∈ seq_vecs, mat.length ≤ sq.length)
    (hbig : ∀ sq ∈ seq_vecs, (sq.length : Int) + 2 ≤ 2 ^ 64)
    (hne : ∃ s ∈ seq_vecs, s ≠ []) :
    ∃ out, scan_sequences_cpp score_mats seq_vecs 1 [] min_scores nthreads
      anf warnNA = Except.ok out := by
  obtain ⟨out, hout⟩ := scan_empty_alph_pipeline score_mats seq_vecs
    min_scores warnNA hlen hpre hbig hne
  have hany : ((score_mats.map List.length).any
      (fun m => (seq_vecs.map List.length).any (fun s2 => s2 < m)))
      = false := by
    rw [List.any_eq_false]
    intro m hm
    obtain ⟨mat, hmat, rfl⟩ := List.mem_map.mp hm
    rw [List.any_eq_true]
    rintro ⟨s2, hs2, hlt⟩
    obtain ⟨sq, hsq, rfl⟩ := List.mem_map.mp hs2
    rw [decide_eq_true_eq] at hlt
    exact absurd hlt (not_lt.mpr (hpre mat hmat sq hsq))
  unfold scan_sequences_cpp
  rw [if_neg (by rw [hany]; simp)]
  rw [hout]
  exact ⟨out, rfl⟩

/-- Witness for the amended C9: a concrete empty-alphabet call that
returns a table. -/
theorem claim_C9_amended_witness :
    ∃ out, scan_sequences_cpp [[[(2 : ℚ)]]] [['X']] 1 [] [0] 7 false true
      = Except.ok out :=
  claim_C9_amended [[[(2 : ℚ)]]] [['X']] [0] 7 false true (by decide)
    (by decide) (by decide) (by decide)
